import Mathlib

/-!
Verification of `pyward/rules/security_rules.py`.

The Python module walks an `ast` tree with `ast.NodeVisitor` / `ast.walk`
and returns lists of warning strings.  We embed the fragment of the Python
AST that the seven check functions inspect (`Module`, statements,
expressions, `keyword` and `alias` nodes), embed each check function, and
prove the specification claims about them.

A `NodeVisitor` subclass that overrides `visit_X` and ends the override
with `self.generic_visit(node)` appends its diagnostics at each node during
a pre-order depth-first descent over the tree (fields in declaration
order); its result is therefore the concatenation, over the pre-order node
list, of a per-node contribution.  Each visitor-based check below is
embedded that way, with the per-node contribution spelled out separately.
`ast.walk` enumerates nodes in breadth-first order and is embedded as a
queue-based traversal.
-/

set_option maxHeartbeats 1000000
set_option maxRecDepth 100000

namespace PyWard

/-- Python constant values as they occur in `ast.Constant` nodes.  A
separate constructor per primitive type models Python's dynamic typing:
`value is True` holds only for the boolean, and `isinstance(value, str)`
holds only for strings. -/
inductive PyConst where
  | str (s : String)
  | bool (b : Bool)
  | int (n : Int)
  | none

mutual
/-- The expression fragment of the Python AST inspected by the checks:
`ast.Name`, `ast.Attribute`, `ast.Call` and `ast.Constant`.  Every node
carries its `lineno`.  (`ast.Name.ctx` is omitted: it is a bare
load/store marker with no fields and no line, matched by none of the
rules.) -/
inductive Expr where
  | Name (lineno : Nat) (id : String) : Expr
  | Attribute (lineno : Nat) (value : Expr) (attr : String) : Expr
  | Call (lineno : Nat) (func : Expr) (args : List Expr) (keywords : List Keyword) : Expr
  | Constant (lineno : Nat) (value : PyConst) : Expr

/-- An `ast.keyword` node: `arg` is `none` for a `**kwargs` splat. -/
inductive Keyword where
  | mk (arg : Option String) (value : Expr) : Keyword
end

/-- The `arg` field of an `ast.keyword` node. -/
def Keyword.arg : Keyword → Option String
  | .mk a _ => a

/-- The `value` field of an `ast.keyword` node. -/
def Keyword.value : Keyword → Expr
  | .mk _ v => v

/-- An `ast.alias` node of an import statement. -/
structure Alias where
  name : String
  asname : Option String

/-- The statement fragment of the Python AST inspected by the checks:
`ast.Import`, `ast.ImportFrom`, `ast.Assign`, expression statements
(`ast.Expr`, renamed `ExprStmt` because `Expr` names the expression type)
and `ast.FunctionDef` (restricted to its body, the only field the checks
can match inside). -/
inductive Stmt where
  | Import (lineno : Nat) (names : List Alias) : Stmt
  | ImportFrom (lineno : Nat) (module : Option String) (names : List Alias) : Stmt
  | Assign (lineno : Nat) (targets : List Expr) (value : Expr) : Stmt
  | ExprStmt (lineno : Nat) (value : Expr) : Stmt
  | FunctionDef (lineno : Nat) (name : String) (body : List Stmt) : Stmt

/-- An `ast.Module` node: the tree handed to the checks. -/
structure Module where
  body : List Stmt

/-- A node of the tree, as enumerated by `ast.walk` / visited by
`ast.NodeVisitor`. -/
inductive Node where
  | module (m : Module)
  | stmt (s : Stmt)
  | expr (e : Expr)
  | keyword (k : Keyword)
  | aliasN (a : Alias)

/-- The `lineno` of a statement. -/
def Stmt.lineno : Stmt → Nat
  | .Import ln _ => ln
  | .ImportFrom ln _ _ => ln
  | .Assign ln _ _ => ln
  | .ExprStmt ln _ => ln
  | .FunctionDef ln _ _ => ln

/-- The `lineno` of an expression. -/
def Expr.lineno : Expr → Nat
  | .Name ln _ => ln
  | .Attribute ln _ _ => ln
  | .Call ln _ _ _ => ln
  | .Constant ln _ => ln

/-- The `lineno` of a node; nodes without one (`Module`, `keyword`,
`alias`) — none of which any rule reports at — get 0. -/
def lineOf : Node → Nat
  | .module _ => 0
  | .stmt s => s.lineno
  | .expr e => e.lineno
  | .keyword _ => 0
  | .aliasN _ => 0

/-- The child nodes of a node in field declaration order, as
`ast.iter_child_nodes` yields them (restricted to the embedded fields). -/
def Node.children : Node → List Node
  | .module m => m.body.map Node.stmt
  | .stmt (.Import _ ns) => ns.map Node.aliasN
  | .stmt (.ImportFrom _ _ ns) => ns.map Node.aliasN
  | .stmt (.Assign _ ts v) => ts.map Node.expr ++ [Node.expr v]
  | .stmt (.ExprStmt _ v) => [Node.expr v]
  | .stmt (.FunctionDef _ _ body) => body.map Node.stmt
  | .expr (.Name _ _) => []
  | .expr (.Attribute _ v _) => [Node.expr v]
  | .expr (.Call _ f args kws) => Node.expr f :: (args.map Node.expr ++ kws.map Node.keyword)
  | .expr (.Constant _ _) => []
  | .keyword (.mk _ v) => [Node.expr v]
  | .aliasN _ => []

mutual
/-- Number of embedded nodes in an expression subtree. -/
def esize : Expr → Nat
  | .Name _ _ => 1
  | .Attribute _ v _ => 1 + esize v
  | .Call _ f args kws => 1 + esize f + esizes args + ksizes kws
  | .Constant _ _ => 1

/-- Number of embedded nodes in a list of expression subtrees. -/
def esizes : List Expr → Nat
  | [] => 0
  | e :: es => esize e + esizes es

/-- Number of embedded nodes in a keyword subtree. -/
def ksize : Keyword → Nat
  | .mk _ v => 1 + esize v

/-- Number of embedded nodes in a list of keyword subtrees. -/
def ksizes : List Keyword → Nat
  | [] => 0
  | k :: ks => ksize k + ksizes ks
end

mutual
/-- Number of embedded nodes in a statement subtree. -/
def ssize : Stmt → Nat
  | .Import _ ns => 1 + ns.length
  | .ImportFrom _ _ ns => 1 + ns.length
  | .Assign _ ts v => 1 + esizes ts + esize v
  | .ExprStmt _ v => 1 + esize v
  | .FunctionDef _ _ body => 1 + ssizes body

/-- Number of embedded nodes in a list of statement subtrees. -/
def ssizes : List Stmt → Nat
  | [] => 0
  | s :: ss => ssize s + ssizes ss
end

/-- Number of embedded nodes in a node's subtree. -/
def nsize : Node → Nat
  | .module m => 1 + ssizes m.body
  | .stmt s => ssize s
  | .expr e => esize e
  | .keyword k => ksize k
  | .aliasN _ => 1

/-- Total number of embedded nodes under a list of nodes. -/
def nsizes : List Node → Nat
  | [] => 0
  | n :: ns => nsize n + nsizes ns

mutual
/-- Pre-order node list of an expression subtree, in the order
`NodeVisitor` reaches the nodes. -/
def preExpr : Expr → List Node
  | .Name ln id => [.expr (.Name ln id)]
  | .Attribute ln v a => .expr (.Attribute ln v a) :: preExpr v
  | .Call ln f args kws =>
      .expr (.Call ln f args kws) :: (preExpr f ++ (preExprs args ++ preKeywords kws))
  | .Constant ln c => [.expr (.Constant ln c)]

/-- Pre-order node list of a list of expression subtrees. -/
def preExprs : List Expr → List Node
  | [] => []
  | e :: es => preExpr e ++ preExprs es

/-- Pre-order node list of a keyword subtree. -/
def preKeyword : Keyword → List Node
  | .mk a v => .keyword (.mk a v) :: preExpr v

/-- Pre-order node list of a list of keyword subtrees. -/
def preKeywords : List Keyword → List Node
  | [] => []
  | k :: ks => preKeyword k ++ preKeywords ks
end

mutual
/-- Pre-order node list of a statement subtree. -/
def preStmt : Stmt → List Node
  | .Import ln ns => .stmt (.Import ln ns) :: ns.map Node.aliasN
  | .ImportFrom ln m ns => .stmt (.ImportFrom ln m ns) :: ns.map Node.aliasN
  | .Assign ln ts v => .stmt (.Assign ln ts v) :: (preExprs ts ++ preExpr v)
  | .ExprStmt ln v => .stmt (.ExprStmt ln v) :: preExpr v
  | .FunctionDef ln nm body => .stmt (.FunctionDef ln nm body) :: preStmts body

/-- Pre-order node list of a list of statement subtrees. -/
def preStmts : List Stmt → List Node
  | [] => []
  | s :: ss => preStmt s ++ preStmts ss
end

/-- Pre-order node list of a whole module: the order in which a
`NodeVisitor` started on the tree reaches every node. -/
def preorderM (m : Module) : List Node :=
  Node.module m :: preStmts m.body

/-- Pre-order node list of an arbitrary node's subtree. -/
def preNode : Node → List Node
  | .module m => preorderM m
  | .stmt s => preStmt s
  | .expr e => preExpr e
  | .keyword k => preKeyword k
  | .aliasN a => [.aliasN a]

/-- Breadth-first enumeration of the subtrees of all nodes in `queue`,
processing the queue front first and appending children at the back,
exactly as `ast.walk` does with its `deque`.  The `fuel` argument is a
termination bound only: each step dequeues one node, so `nsizes queue`
steps reach the empty queue (`walk` below supplies exactly that much). -/
def walkFuel : Nat → List Node → List Node
  | 0, _ => []
  | _ + 1, [] => []
  | fuel + 1, n :: rest => n :: walkFuel fuel (rest ++ n.children)

/-- `ast.walk node`: breadth-first node enumeration. -/
def walk (n : Node) : List Node :=
  walkFuel (nsize n) [n]

/-- Python `needle in hay` on strings, on the underlying character
lists: some contiguous run of `hay` equals `needle`. -/
def strIn (needle hay : List Char) : Bool :=
  match hay with
  | [] => needle.isEmpty
  | _ :: t => needle.isPrefixOf hay || strIn needle t

/-- Python `s.startswith(p)`. -/
def startswith (s p : String) : Bool :=
  p.data.isPrefixOf s.data

/-- Python `s.lower()` (identifiers here are ASCII, where
`Char.toLower` agrees with `str.lower`). -/
def pyLower (s : String) : String :=
  ⟨s.data.map Char.toLower⟩

/-- Python `s.upper()` (the algorithm names passed to it here are
ASCII). -/
def pyUpper (s : String) : String :=
  ⟨s.data.map Char.toUpper⟩

/-- The warning string built by `check_exec_eval_usage` at a matched
call, with the matched name (`exec` or `eval`) and the call's line
interpolated exactly as in the source f-string. -/
def execEvalMsg (id : String) (lineno : Nat) : String :=
  "[Security]" ++ ("[CVE-2025-3248]" ++ (" Line " ++ (toString lineno ++ (": " ++
    ("Use of '" ++ (id ++ "()' detected. This can lead to code injection (e.g. CVE-2025-3248 in Langflow). Consider safer alternatives (e.g., ast.literal_eval) or explicit parsing."))))))

/-- The warning string built by `check_python_json_logger_import` for a
matched `import` alias. -/
def pjlImportMsg (lineno : Nat) : String :=
  "[Security]" ++ ("[CVE-2025-27607]" ++ (" Line " ++ (toString lineno ++ (": " ++
    "'python_json_logger' import detected. This package was vulnerable to RCE between Dec 30, 2024 and Mar 4, 2025 (CVE-2025-27607). Update to a patched version or remove this dependency."))))

/-- The warning string built by `check_python_json_logger_import` for a
matched `from ... import` statement. -/
def pjlFromMsg (lineno : Nat) : String :=
  "[Security]" ++ ("[CVE-2025-27607]" ++ (" Line " ++ (toString lineno ++ (": " ++
    "'from python_json_logger import ...' detected. This package was vulnerable to RCE between Dec 30, 2024 and Mar 4, 2025 (CVE-2025-27607). Update to a patched version or remove this dependency."))))

/-- The warning string built by `check_subprocess_usage`, with the
attribute name (`run`, `Popen`, `call` or `check_output`) and the call's
line interpolated. -/
def subprocessMsg (attr : String) (lineno : Nat) : String :=
  "[Security]" ++ (" Line " ++ (toString lineno ++ (": " ++
    ("Use of subprocess." ++ (attr ++ "() with shell=True. Risk of shell injection. Recommendation: Use a list of arguments and shell=False.")))))

/-- The warning string built by `check_pickle_usage`, with the attribute
name (`load` or `loads`) and the call's line interpolated. -/
def pickleMsg (attr : String) (lineno : Nat) : String :=
  "[Security]" ++ (" Line " ++ (toString lineno ++ (": " ++
    ("Use of pickle." ++ (attr ++ "(). Untrusted pickle data can lead to RCE. Recommendation: Use json or verify signature before unpickling.")))))

/-- The warning string built by `check_yaml_load_usage` at an unguarded
`yaml.load` call. -/
def yamlMsg (lineno : Nat) : String :=
  "[Security]" ++ (" Line " ++ (toString lineno ++ (": " ++
    "Use of yaml.load() without SafeLoader. Unsafe YAML loading can lead to code execution. Recommendation: Use yaml.safe_load() or specify Loader=yaml.SafeLoader.")))

/-- The warning string built by `check_hardcoded_secrets`, with the
assignment target's name (original casing) and line interpolated. -/
def secretsMsg (id : String) (lineno : Nat) : String :=
  "[Security]" ++ (" Line " ++ (toString lineno ++ (": " ++
    ("Assignment to '" ++ (id ++ "' with a literal string. Hard-coded secret detected. Recommendation: Store secrets in environment variables or a secrets manager.")))))

/-- The warning string built by `check_weak_hashing_usage`, with the
attribute name (`md5` or `sha1`) interpolated, once verbatim and once
upper-cased. -/
def hashMsg (attr : String) (lineno : Nat) : String :=
  "[Security]" ++ (" Line " ++ (toString lineno ++ (": " ++
    ("Use of hashlib." ++ (attr ++ ("(). " ++ (pyUpper attr ++ " is considered weak. Recommendation: Use hashlib.sha256 or stronger.")))))))

/-- Per-node contribution of `ExecEvalVisitor.visit_Call`
(security_rules.py lines 19-27): a call whose `func` is a plain `Name`
with id `exec` or `eval` yields one warning at the call's line. -/
def execEval_visit : Node → List String
  | .expr (.Call ln (.Name _ id) _ _) =>
      if id = "exec" ∨ id = "eval" then [execEvalMsg id ln] else []
  | _ => []

/-- `check_exec_eval_usage` (security_rules.py lines 7-30). -/
def check_exec_eval_usage (tree : Module) : List String :=
  (preorderM tree).flatMap execEval_visit

/-- The module-name test of `check_python_json_logger_import`:
`name == "python_json_logger" or name.startswith("python_json_logger.")`. -/
def pjl_matches (name : String) : Bool :=
  name = "python_json_logger" || startswith name ("python_json_logger.")

/-- Per-node contribution of the `ast.walk` loop of
`check_python_json_logger_import` (security_rules.py lines 43-61): one
warning per matching alias of an `Import`, one warning for a matching
`ImportFrom` (whose `module` of `None` is read as `""`). -/
def pjl_visit : Node → List String
  | .stmt (.Import ln ns) =>
      ns.flatMap fun a => if pjl_matches a.name then [pjlImportMsg ln] else []
  | .stmt (.ImportFrom ln m _) =>
      if pjl_matches (m.getD ("")) then [pjlFromMsg ln] else []
  | _ => []

/-- `check_python_json_logger_import` (security_rules.py lines 33-63);
the only check driven by `ast.walk` rather than a `NodeVisitor`. -/
def check_python_json_logger_import (tree : Module) : List String :=
  (walk (Node.module tree)).flatMap pjl_visit

/-- The per-keyword test of `check_subprocess_usage`'s loop:
`kw.arg == "shell"` and `kw.value` is a `Constant` whose value
`is True` (the boolean; not `1`, which would fail Python's `is`). -/
def shell_true_kw : Keyword → Bool
  | .mk (some ("shell")) (.Constant _ (.bool true)) => true
  | _ => false

/-- Per-node contribution of `SubprocessVisitor.visit_Call`
(security_rules.py lines 74-90): an attribute call
`subprocess.{run,Popen,call,check_output}` yields one warning per
keyword passing `shell_true_kw` (Python forbids a repeated keyword, so
on trees obtained from source at most one keyword matches and at most
one warning arises per call). -/
def subprocess_visit : Node → List String
  | .expr (.Call ln (.Attribute _ (.Name _ v) attr) _ kws) =>
      if v = "subprocess" ∧ (attr = "run" ∨ attr = "Popen" ∨ attr = "call" ∨ attr = "check_output") then
        kws.flatMap fun kw => if shell_true_kw kw then [subprocessMsg attr ln] else []
      else []
  | _ => []

/-- `check_subprocess_usage` (security_rules.py lines 66-93). -/
def check_subprocess_usage (tree : Module) : List String :=
  (preorderM tree).flatMap subprocess_visit

/-- Per-node contribution of `PickleVisitor.visit_Call`
(security_rules.py lines 104-115). -/
def pickle_visit : Node → List String
  | .expr (.Call ln (.Attribute _ (.Name _ v) attr) _ _) =>
      if v = "pickle" ∧ (attr = "load" ∨ attr = "loads") then [pickleMsg attr ln] else []
  | _ => []

/-- `check_pickle_usage` (security_rules.py lines 96-118). -/
def check_pickle_usage (tree : Module) : List String :=
  (preorderM tree).flatMap pickle_visit

/-- The per-keyword test of `check_yaml_load_usage`'s `has_safe` loop:
`kw.arg in ("Loader",)` and `kw.value` is an `Attribute` whose `attr`
is `SafeLoader`. -/
def is_safe_loader_kw : Keyword → Bool
  | .mk (some ("Loader")) (.Attribute _ _ a) => a = "SafeLoader"
  | _ => false

/-- Per-node contribution of `YAMLVisitor.visit_Call`
(security_rules.py lines 129-143): a `yaml.load` attribute call yields
one warning unless some keyword passes `is_safe_loader_kw`. -/
def yaml_visit : Node → List String
  | .expr (.Call ln (.Attribute _ (.Name _ v) attr) _ kws) =>
      if v = "yaml" ∧ attr = "load" then
        if kws.any is_safe_loader_kw then [] else [yamlMsg ln]
      else []
  | _ => []

/-- `check_yaml_load_usage` (security_rules.py lines 121-147). -/
def check_yaml_load_usage (tree : Module) : List String :=
  (preorderM tree).flatMap yaml_visit

/-- The fixed vocabulary of `check_hardcoded_secrets`. -/
def secret_keywords : List String :=
  ["key", "secret", "password", "token", "passwd"]

/-- Per-node contribution of `SecretsVisitor.visit_Assign`
(security_rules.py lines 159-172): a single-target assignment of a
string literal to a plain name containing (lower-cased) one of the
`secret_keywords` yields one warning.  The early `return` for
multi-target assignments skips `generic_visit`, which is unobservable
here: expression subtrees contain no `Assign` nodes. -/
def secrets_visit : Node → List String
  | .stmt (.Assign ln [Expr.Name _ id] (.Constant _ (.str _))) =>
      if secret_keywords.any (fun kw => strIn kw.data (pyLower id).data) then
        [secretsMsg id ln]
      else []
  | _ => []

/-- `check_hardcoded_secrets` (security_rules.py lines 150-175). -/
def check_hardcoded_secrets (tree : Module) : List String :=
  (preorderM tree).flatMap secrets_visit

/-- Per-node contribution of `HashVisitor.visit_Attribute`
(security_rules.py lines 186-193): any `hashlib.md5` / `hashlib.sha1`
attribute access (not only in call position) yields one warning at the
attribute node's line. -/
def hash_visit : Node → List String
  | .expr (.Attribute ln (.Name _ v) attr) =>
      if v = "hashlib" ∧ (attr = "md5" ∨ attr = "sha1") then [hashMsg attr ln] else []
  | _ => []

/-- `check_weak_hashing_usage` (security_rules.py lines 178-196). -/
def check_weak_hashing_usage (tree : Module) : List String :=
  (preorderM tree).flatMap hash_visit

/-- The fixed rule registry of `run_all_checks`
(security_rules.py lines 203-211), in source order. -/
def checks : List (Module → List String) :=
  [check_exec_eval_usage,
   check_python_json_logger_import,
   check_subprocess_usage,
   check_pickle_usage,
   check_yaml_load_usage,
   check_hardcoded_secrets,
   check_weak_hashing_usage]

/-- `run_all_checks` (security_rules.py lines 199-215): start from the
empty list and `extend` with each check's result in registry order. -/
def run_all_checks (tree : Module) : List String :=
  checks.foldl (fun all_issues check => all_issues ++ check tree) []

/-- A rule under Python exception semantics: it either returns a list of
warnings or raises (modelled as `Except.error` carrying the exception
name). -/
abbrev ExcRule := Module → Except String (List String)

/-- A rule that never raises, as all seven registered checks are on
well-formed trees. -/
def ok_rule (c : Module → List String) : ExcRule :=
  fun tree => .ok (c tree)

/-- A rule that raises on every tree, standing for a matcher failing on
an unexpected node shape. -/
def faulty_rule : ExcRule :=
  fun _ => .error ("AttributeError")

/-- The loop of `run_all_checks` under Python exception semantics.  The
source body has no `try`/`except`, so an exception raised by any check
aborts the loop and propagates out of `run_all_checks`. -/
def run_checks_exc (cs : List ExcRule) (tree : Module) : Except String (List String) :=
  cs.foldlM (fun all_issues check => do
    let issues ← check tree
    pure (all_issues ++ issues)) []

/-- Spec-side description for claim C3, written from the claim's words:
the `Call` nodes whose function is a plain `Name` with id `exec` or
`eval`, paired with their line numbers. -/
def execEvalTarget : Node → Option (String × Nat)
  | .expr (.Call ln (.Name _ id) _ _) =>
      if id = "exec" ∨ id = "eval" then some (id, ln) else none
  | _ => none

/-- Spec-side description for claim C5, written from the claim's words:
the line of a call of the form `yaml.load(...)` that lacks a keyword
argument named `Loader` whose value is an attribute access ending in
`SafeLoader`. -/
def yamlTarget : Node → Option Nat
  | .expr (.Call ln (.Attribute _ (.Name _ recv) meth) _ kws) =>
      if recv = "yaml" ∧ meth = "load" ∧ ¬ kws.any is_safe_loader_kw = true then
        some ln
      else none
  | _ => none

/-- The receiver name of an attribute-access node whose receiver is a
plain name, if the node is of that shape. -/
def receiverName : Node → Option String
  | .expr (.Attribute _ (.Name _ v) _) => some v
  | _ => none

/-- All plain names used as attribute receivers anywhere in a module. -/
def receiver_names (tree : Module) : List String :=
  (preorderM tree).filterMap receiverName

/-- Concrete test module: `eval(x)` on line 3. -/
def tree_exec : Module :=
  ⟨[.ExprStmt 3 (.Call 3 (.Name 3 ("eval")) [.Name 3 ("x")] [])]⟩

/-- Concrete test module importing the four dangerous modules under
aliases and using every dangerous member through the alias only:
`import subprocess as sp` (line 1), `sp.run(cmd, shell=True)` (line 2),
`pk.loads(data)` (line 3), `ym.load(doc)` (line 4), `hl.md5` (line 5). -/
def tree_alias : Module :=
  ⟨[.Import 1 [⟨("subprocess"), some ("sp")⟩],
    .ExprStmt 2 (.Call 2 (.Attribute 2 (.Name 2 ("sp")) ("run")) [.Name 2 ("cmd")]
      [Keyword.mk (some ("shell")) (.Constant 2 (.bool true))]),
    .ExprStmt 3 (.Call 3 (.Attribute 3 (.Name 3 ("pk")) ("loads")) [.Name 3 ("data")] []),
    .ExprStmt 4 (.Call 4 (.Attribute 4 (.Name 4 ("ym")) ("load")) [.Name 4 ("doc")] []),
    .ExprStmt 5 (.Attribute 5 (.Name 5 ("hl")) ("md5"))]⟩

/-! Helper lemmas. -/

/-- `run_all_checks` unfolded to the explicit concatenation of the seven
registered checks. -/
theorem run_all_checks_eq (tree : Module) :
    run_all_checks tree =
      check_exec_eval_usage tree ++ (check_python_json_logger_import tree ++
        (check_subprocess_usage tree ++ (check_pickle_usage tree ++
          (check_yaml_load_usage tree ++ (check_hardcoded_secrets tree ++
            check_weak_hashing_usage tree))))) := by
  simp [run_all_checks, checks]

/-- `nsizes` distributes over list append. -/
theorem nsizes_append (l₁ l₂ : List Node) : nsizes (l₁ ++ l₂) = nsizes l₁ + nsizes l₂ := by
  induction l₁ with
  | nil => simp [nsizes]
  | cons n ns ih => simp [nsizes, ih]; omega

/-- Every node counts at least itself. -/
theorem nsize_pos (n : Node) : 0 < nsize n := by
  cases n with
  | module m => simp [nsize]
  | stmt s => cases s <;> simp [nsize, ssize]
  | expr e => cases e <;> simp [nsize, esize]
  | keyword k => cases k; simp [nsize, ksize]
  | aliasN a => simp [nsize]

theorem nsizes_map_stmt (l : List Stmt) : nsizes (l.map Node.stmt) = ssizes l := by
  induction l with
  | nil => simp [nsizes, ssizes]
  | cons s ss ih => simp [nsizes, ssizes, ih, nsize]

theorem nsizes_map_expr (l : List Expr) : nsizes (l.map Node.expr) = esizes l := by
  induction l with
  | nil => simp [nsizes, esizes]
  | cons e es ih => simp [nsizes, esizes, ih, nsize]

theorem nsizes_map_keyword (l : List Keyword) : nsizes (l.map Node.keyword) = ksizes l := by
  induction l with
  | nil => simp [nsizes, ksizes]
  | cons k ks ih => simp [nsizes, ksizes, ih, nsize]

theorem nsizes_map_aliasN (l : List Alias) : nsizes (l.map Node.aliasN) = l.length := by
  induction l with
  | nil => simp [nsizes]
  | cons a as ih => simp [nsizes, ih, nsize]; omega

/-- A node's children together count strictly fewer nodes than the node's
own subtree. -/
theorem nsizes_children_lt (n : Node) : nsizes n.children < nsize n := by
  cases n with
  | module m =>
      simp [Node.children, nsize, nsizes_map_stmt]
  | stmt s =>
      cases s <;>
        simp [Node.children, nsize, ssize, nsizes_append, nsizes_map_aliasN,
          nsizes_map_expr, nsizes, nsizes_map_stmt]
  | expr e =>
      cases e with
      | Name ln id => simp [Node.children, nsize, esize, nsizes]
      | Attribute ln v a => simp [Node.children, nsize, esize, nsizes]
      | Call ln f args kws =>
          simp [Node.children, nsize, esize, nsizes, nsizes_append,
            nsizes_map_expr, nsizes_map_keyword]
          omega
      | Constant ln c => simp [Node.children, nsize, esize, nsizes]
  | keyword k => cases k with
      | mk a v => simp [Node.children, nsize, ksize, nsizes]
  | aliasN a => simp [Node.children, nsize, nsizes]

theorem nsize_le_nsizes_of_mem {c : Node} {l : List Node} (h : c ∈ l) :
    nsize c ≤ nsizes l := by
  induction l with
  | nil => cases h
  | cons n ns ih =>
      rcases List.mem_cons.mp h with h | h
      · subst h; simp [nsizes]
      · have := ih h; simp [nsizes]; omega

theorem nsizes_eq_zero {l : List Node} (h : nsizes l = 0) : l = [] := by
  cases l with
  | nil => rfl
  | cons n ns => have := nsize_pos n; simp [nsizes] at h; omega

theorem flatMap_preNode_map_expr (l : List Expr) :
    (l.map Node.expr).flatMap preNode = preExprs l := by
  induction l with
  | nil => simp [preExprs]
  | cons e es ih => simp [preExprs, ih, preNode]

theorem flatMap_preNode_map_stmt (l : List Stmt) :
    (l.map Node.stmt).flatMap preNode = preStmts l := by
  induction l with
  | nil => simp [preStmts]
  | cons s ss ih => simp [preStmts, ih, preNode]

theorem flatMap_preNode_map_keyword (l : List Keyword) :
    (l.map Node.keyword).flatMap preNode = preKeywords l := by
  induction l with
  | nil => simp [preKeywords]
  | cons k ks ih => simp [preKeywords, ih, preNode]

theorem flatMap_preNode_map_aliasN (l : List Alias) :
    (l.map Node.aliasN).flatMap preNode = l.map Node.aliasN := by
  induction l with
  | nil => simp
  | cons a as ih => simp [ih, preNode]

/-- A subtree's pre-order list is its root followed by the concatenated
pre-order lists of its children. -/
theorem preNode_eq (n : Node) :
    preNode n = n :: (Node.children n).flatMap preNode := by
  cases n with
  | module m =>
      simp [preNode, preorderM, Node.children, flatMap_preNode_map_stmt]
  | stmt s =>
      cases s <;>
        simp [preNode, preStmt, Node.children, flatMap_preNode_map_aliasN,
          flatMap_preNode_map_expr, flatMap_preNode_map_stmt, preNode]
  | expr e =>
      cases e <;>
        simp [preNode, preExpr, Node.children, flatMap_preNode_map_expr,
          flatMap_preNode_map_keyword]
  | keyword k =>
      cases k with
      | mk a v => simp [preNode, preKeyword, Node.children]
  | aliasN a => simp [preNode, Node.children]

theorem self_mem_preNode (n : Node) : n ∈ preNode n := by
  rw [preNode_eq]; exact List.mem_cons_self n _

/-- Breadth-first enumeration with enough fuel is a permutation of the
concatenated pre-order lists of the queue's subtrees. -/
theorem walkFuel_perm :
    ∀ (fuel : Nat) (q : List Node), nsizes q ≤ fuel →
      (walkFuel fuel q).Perm (q.flatMap preNode) := by
  intro fuel
  induction fuel with
  | zero =>
      intro q hq
      have : q = [] := nsizes_eq_zero (Nat.le_zero.mp hq)
      subst this; simp [walkFuel]
  | succ fuel ih =>
      intro q hq
      cases q with
      | nil => simp [walkFuel]
      | cons n rest =>
          have h1 : nsizes (rest ++ n.children) ≤ fuel := by
            have h2 := nsizes_children_lt n
            have h3 : nsizes (n :: rest) = nsize n + nsizes rest := rfl
            rw [nsizes_append]
            omega
          have hperm := ih (rest ++ n.children) h1
          have hstep : walkFuel (fuel + 1) (n :: rest) = n :: walkFuel fuel (rest ++ n.children) := rfl
          rw [hstep, List.flatMap_cons, preNode_eq n, List.cons_append]
          refine (hperm.cons n).trans ?_
          rw [List.flatMap_append]
          exact (List.perm_append_comm).cons n

/-- `ast.walk` started on a module enumerates exactly the module's
pre-order node list, up to order. -/
theorem walk_perm (tree : Module) :
    (walk (Node.module tree)).Perm (preorderM tree) := by
  have h : nsizes [Node.module tree] ≤ nsize (Node.module tree) := by
    simp [nsizes]
  have := walkFuel_perm (nsize (Node.module tree)) [Node.module tree] h
  simpa [walk, preNode] using this

/-- The pre-order node list is closed under taking children. -/
theorem children_mem_preNode :
    ∀ (k : Nat) (root : Node), nsize root ≤ k →
      ∀ nd ∈ preNode root, ∀ c ∈ nd.children, c ∈ preNode root := by
  intro k
  induction k with
  | zero => intro root hk; have := nsize_pos root; omega
  | succ k ih =>
      intro root hk nd hnd c hc
      rw [preNode_eq root] at hnd
      rcases List.mem_cons.mp hnd with h | h
      · subst h
        rw [preNode_eq nd]
        refine List.mem_cons_of_mem _ (List.mem_flatMap.mpr ⟨c, hc, self_mem_preNode c⟩)
      · rcases List.mem_flatMap.mp h with ⟨r, hr, hnd'⟩
        have hsize : nsize r ≤ k := by
          have h1 := nsize_le_nsizes_of_mem hr
          have h2 := nsizes_children_lt root
          omega
        have := ih r hsize nd hnd' c hc
        rw [preNode_eq root]
        exact List.mem_cons_of_mem _ (List.mem_flatMap.mpr ⟨r, hr, this⟩)

/-- A per-node contribution that emits one string per hit is the mapped
filter of the hits. -/
theorem flatMap_eq_filterMap_map {α β γ : Type} (f : α → List β) (t : α → Option γ)
    (m : γ → β) (h : ∀ a, f a = (t a).elim [] (fun c => [m c]))
    (l : List α) : l.flatMap f = (l.filterMap t).map m := by
  induction l with
  | nil => simp
  | cons a as ih =>
      rw [List.flatMap_cons, List.filterMap_cons, h a]
      cases t a <;> simp [ih, Option.elim]

theorem flatMap_if_singleton_eq_filter_map {α : Type} (p : α → Bool) (c : String)
    (l : List α) :
    (l.flatMap fun a => if p a then [c] else []) = (l.filter p).map (fun _ => c) := by
  induction l with
  | nil => simp
  | cons a as ih => by_cases h : p a <;> simp [List.filter_cons, h, ih]

/-- `shell_true_kw` in the words of claim C4: a keyword argument named
`shell` whose value is the literal constant `True`. -/
theorem shell_true_kw_iff (kw : Keyword) :
    shell_true_kw kw = true ↔
      kw.arg = some ("shell") ∧ ∃ lc, kw.value = Expr.Constant lc (.bool true) := by
  rcases kw with ⟨a, v⟩
  constructor
  · intro h
    unfold shell_true_kw at h
    split at h
    · next ln => simp_all [Keyword.arg, Keyword.value]
    · exact absurd h (by simp)
  · rintro ⟨ha, lc, hv⟩
    simp [Keyword.arg] at ha
    simp [Keyword.value] at hv
    subst ha; subst hv
    rfl

/-- `is_safe_loader_kw` in the words of claims C5/C10: a keyword named
`Loader` whose value is an attribute access, on any object, whose final
attribute is `SafeLoader`. -/
theorem is_safe_loader_kw_iff (kw : Keyword) :
    is_safe_loader_kw kw = true ↔
      kw.arg = some ("Loader") ∧ ∃ la obj, kw.value = Expr.Attribute la obj ("SafeLoader") := by
  rcases kw with ⟨a, v⟩
  constructor
  · intro h
    unfold is_safe_loader_kw at h
    split at h
    · next la obj attr =>
        simp at h
        simp_all [Keyword.arg, Keyword.value]
    · exact absurd h (by simp)
  · rintro ⟨ha, la, obj, hv⟩
    simp [Keyword.arg] at ha
    simp [Keyword.value] at hv
    subst ha; subst hv
    simp [is_safe_loader_kw]

/-- `strIn` decides containment of a contiguous character run, the
meaning of Python's `in` on strings. -/
theorem strIn_iff (needle hay : List Char) :
    strIn needle hay = true ↔ ∃ pre post, hay = pre ++ needle ++ post := by
  induction hay with
  | nil =>
      simp only [strIn, List.isEmpty_iff]
      constructor
      · rintro rfl; exact ⟨[], [], rfl⟩
      · rintro ⟨pre, post, h⟩
        rcases List.append_eq_nil.mp (List.append_eq_nil.mp h.symm).1 with ⟨-, h2⟩
        exact h2
  | cons c t ih =>
      simp only [strIn, Bool.or_eq_true, List.isPrefixOf_iff_prefix, ih]
      constructor
      · rintro (⟨post, hpost⟩ | ⟨pre, post, rfl⟩)
        · exact ⟨[], post, by simpa using hpost.symm⟩
        · exact ⟨c :: pre, post, rfl⟩
      · rintro ⟨pre, post, h⟩
        cases pre with
        | nil =>
            left
            exact ⟨post, by simpa using h.symm⟩
        | cons p ps =>
            right
            simp at h
            exact ⟨ps, post, by simp [h.1, h.2]⟩

/-- `execEval_visit` emits exactly one message per `execEvalTarget` hit. -/
theorem execEval_visit_eq (nd : Node) :
    execEval_visit nd = (execEvalTarget nd).elim [] (fun p => [execEvalMsg p.1 p.2]) := by
  cases nd with
  | expr e =>
      cases e with
      | Call ln f args kws =>
          cases f with
          | Name lv id =>
              by_cases hc : id = "exec" ∨ id = "eval" <;>
                simp [execEval_visit, execEvalTarget, hc, Option.elim]
          | Attribute la v at2 => simp [execEval_visit, execEvalTarget, Option.elim]
          | Call lc g as2 ks2 => simp [execEval_visit, execEvalTarget, Option.elim]
          | Constant lc c => simp [execEval_visit, execEvalTarget, Option.elim]
      | Name ln id => simp [execEval_visit, execEvalTarget, Option.elim]
      | Attribute ln v a => simp [execEval_visit, execEvalTarget, Option.elim]
      | Constant ln c => simp [execEval_visit, execEvalTarget, Option.elim]
  | module m => simp [execEval_visit, execEvalTarget, Option.elim]
  | stmt s => simp [execEval_visit, execEvalTarget, Option.elim]
  | keyword k => simp [execEval_visit, execEvalTarget, Option.elim]
  | aliasN a => simp [execEval_visit, execEvalTarget, Option.elim]

/-- `yaml_visit` emits exactly one message per `yamlTarget` hit. -/
theorem yaml_visit_eq (nd : Node) :
    yaml_visit nd = (yamlTarget nd).elim [] (fun ln => [yamlMsg ln]) := by
  cases nd with
  | expr e =>
      cases e with
      | Call ln f args kws =>
          cases f with
          | Attribute la v attr =>
              cases v <;> simp only [yaml_visit, yamlTarget] <;> try rfl
              next lv recv =>
                by_cases h1 : recv = "yaml" ∧ attr = "load"
                · by_cases h2 : (kws.any is_safe_loader_kw) = true <;>
                    simp [h1.1, h1.2, h2, Option.elim]
                · have h3 : ¬ (recv = "yaml" ∧ attr = "load" ∧ ¬ (kws.any is_safe_loader_kw) = true) := by
                    tauto
                  rw [if_neg h1, if_neg h3]
                  rfl
          | Name lv id => simp [yaml_visit, yamlTarget]
          | Call lc g as ks => simp [yaml_visit, yamlTarget]
          | Constant lc c => simp [yaml_visit, yamlTarget]
      | Name ln id => simp [yaml_visit, yamlTarget]
      | Attribute ln v a => simp [yaml_visit, yamlTarget]
      | Constant ln c => simp [yaml_visit, yamlTarget]
  | module m => simp [yaml_visit, yamlTarget]
  | stmt s => simp [yaml_visit, yamlTarget]
  | keyword k => simp [yaml_visit, yamlTarget]
  | aliasN a => simp [yaml_visit, yamlTarget]

/-! Message-shape lemmas: each per-node contribution only produces strings
of the rendered diagnostic form, carrying the contributing node's own
`lineno`. -/

theorem execEval_visit_shape (nd : Node) (s : String) (h : s ∈ execEval_visit nd) :
    ∃ rest, s = "[Security]" ++ ("[CVE-2025-3248]" ++ (" Line " ++
      (toString (lineOf nd) ++ (": " ++ rest)))) := by
  cases nd with
  | expr e =>
      cases e with
      | Call ln f args kws =>
          cases f <;> simp only [execEval_visit] at h <;> try simp at h
          next lv id =>
            obtain ⟨-, rfl⟩ := h
            exact ⟨_, rfl⟩
      | Name ln id => simp [execEval_visit] at h
      | Attribute ln v a => simp [execEval_visit] at h
      | Constant ln c => simp [execEval_visit] at h
  | module m => simp [execEval_visit] at h
  | stmt s' => simp [execEval_visit] at h
  | keyword k => simp [execEval_visit] at h
  | aliasN a => simp [execEval_visit] at h

theorem pjl_visit_shape (nd : Node) (s : String) (h : s ∈ pjl_visit nd) :
    ∃ rest, s = "[Security]" ++ ("[CVE-2025-27607]" ++ (" Line " ++
      (toString (lineOf nd) ++ (": " ++ rest)))) := by
  cases nd with
  | stmt s' =>
      cases s' with
      | Import ln ns =>
          simp only [pjl_visit] at h
          rcases List.mem_flatMap.mp h with ⟨a, -, ha⟩
          split at ha <;> simp at ha
          subst ha
          exact ⟨_, rfl⟩
      | ImportFrom ln m ns =>
          simp only [pjl_visit] at h
          split at h <;> simp at h
          subst h
          exact ⟨_, rfl⟩
      | Assign ln ts v => simp [pjl_visit] at h
      | ExprStmt ln v => simp [pjl_visit] at h
      | FunctionDef ln nm body => simp [pjl_visit] at h
  | module m => simp [pjl_visit] at h
  | expr e => simp [pjl_visit] at h
  | keyword k => simp [pjl_visit] at h
  | aliasN a => simp [pjl_visit] at h

theorem subprocess_visit_shape (nd : Node) (s : String) (h : s ∈ subprocess_visit nd) :
    ∃ rest, s = "[Security]" ++ (" Line " ++ (toString (lineOf nd) ++ (": " ++ rest))) := by
  cases nd with
  | expr e =>
      cases e with
      | Call ln f args kws =>
          cases f with
          | Attribute la v attr =>
              cases v <;> simp only [subprocess_visit] at h <;> try simp at h
              next lv recv =>
                rcases h with ⟨-, kw, -, -, rfl⟩
                exact ⟨_, rfl⟩
          | Name lv id => simp [subprocess_visit] at h
          | Call lc g as ks => simp [subprocess_visit] at h
          | Constant lc c => simp [subprocess_visit] at h
      | Name ln id => simp [subprocess_visit] at h
      | Attribute ln v a => simp [subprocess_visit] at h
      | Constant ln c => simp [subprocess_visit] at h
  | module m => simp [subprocess_visit] at h
  | stmt s' => simp [subprocess_visit] at h
  | keyword k => simp [subprocess_visit] at h
  | aliasN a => simp [subprocess_visit] at h

theorem pickle_visit_shape (nd : Node) (s : String) (h : s ∈ pickle_visit nd) :
    ∃ rest, s = "[Security]" ++ (" Line " ++ (toString (lineOf nd) ++ (": " ++ rest))) := by
  cases nd with
  | expr e =>
      cases e with
      | Call ln f args kws =>
          cases f with
          | Attribute la v attr =>
              cases v <;> simp only [pickle_visit] at h <;> try simp at h
              next lv recv =>
                obtain ⟨-, rfl⟩ := h
                exact ⟨_, rfl⟩
          | Name lv id => simp [pickle_visit] at h
          | Call lc g as ks => simp [pickle_visit] at h
          | Constant lc c => simp [pickle_visit] at h
      | Name ln id => simp [pickle_visit] at h
      | Attribute ln v a => simp [pickle_visit] at h
      | Constant ln c => simp [pickle_visit] at h
  | module m => simp [pickle_visit] at h
  | stmt s' => simp [pickle_visit] at h
  | keyword k => simp [pickle_visit] at h
  | aliasN a => simp [pickle_visit] at h

theorem yaml_visit_shape (nd : Node) (s : String) (h : s ∈ yaml_visit nd) :
    ∃ rest, s = "[Security]" ++ (" Line " ++ (toString (lineOf nd) ++ (": " ++ rest))) := by
  rw [yaml_visit_eq nd] at h
  rcases hne : yamlTarget nd with - | ln
  · rw [hne] at h; simp [Option.elim] at h
  · rw [hne] at h
    simp [Option.elim] at h
    subst h
    have : lineOf nd = ln := by
      rcases nd with m | s' | e | k | a <;> try simp [yamlTarget] at hne
      rcases e with ⟨ln', id⟩ | ⟨ln', v, at'⟩ | ⟨ln', f, args, kws⟩ | ⟨ln', c⟩ <;>
        try simp [yamlTarget] at hne
      rcases f with ⟨lf, id⟩ | ⟨lf, v, fat⟩ | ⟨lf, g, as', ks⟩ | ⟨lf, c⟩ <;>
        try simp [yamlTarget] at hne
      rcases v with ⟨lv, id⟩ | ⟨lv, w, vat⟩ | ⟨lv, g, as', ks⟩ | ⟨lv, c⟩ <;>
        try simp [yamlTarget] at hne
      exact hne.2
    rw [this]
    exact ⟨_, rfl⟩

theorem secrets_visit_shape (nd : Node) (s : String) (h : s ∈ secrets_visit nd) :
    ∃ rest, s = "[Security]" ++ (" Line " ++ (toString (lineOf nd) ++ (": " ++ rest))) := by
  cases nd with
  | stmt s' =>
      cases s' with
      | Assign ln ts v =>
          rcases ts with - | ⟨t, ts'⟩
          · simp [secrets_visit] at h
          rcases ts' with - | ⟨t2, ts''⟩
          · rcases t with ⟨lt, id⟩ | ⟨lt, tv, ta⟩ | ⟨lt, f, args, kws⟩ | ⟨lt, c⟩ <;>
              try simp [secrets_visit] at h
            rcases v with ⟨lv, id2⟩ | ⟨lv, vv, va⟩ | ⟨lv, f, args, kws⟩ | ⟨lv, c⟩ <;>
              try simp [secrets_visit] at h
            rcases c with s2 | b | n | - <;> try simp [secrets_visit] at h
            obtain ⟨-, rfl⟩ := h
            exact ⟨_, rfl⟩
          · simp [secrets_visit] at h
      | Import ln ns => simp [secrets_visit] at h
      | ImportFrom ln m ns => simp [secrets_visit] at h
      | ExprStmt ln v => simp [secrets_visit] at h
      | FunctionDef ln nm body => simp [secrets_visit] at h
  | module m => simp [secrets_visit] at h
  | expr e => simp [secrets_visit] at h
  | keyword k => simp [secrets_visit] at h
  | aliasN a => simp [secrets_visit] at h

theorem hash_visit_shape (nd : Node) (s : String) (h : s ∈ hash_visit nd) :
    ∃ rest, s = "[Security]" ++ (" Line " ++ (toString (lineOf nd) ++ (": " ++ rest))) := by
  cases nd with
  | expr e =>
      cases e with
      | Attribute ln v a =>
          cases v <;> simp only [hash_visit] at h <;> try simp at h
          next lv recv =>
            obtain ⟨-, rfl⟩ := h
            exact ⟨_, rfl⟩
      | Name ln id => simp [hash_visit] at h
      | Call ln f args kws => simp [hash_visit] at h
      | Constant ln c => simp [hash_visit] at h
  | module m => simp [hash_visit] at h
  | stmt s' => simp [hash_visit] at h
  | keyword k => simp [hash_visit] at h
  | aliasN a => simp [hash_visit] at h

/-! The claim theorems. -/

/-- C1: For every input tree, `run_all_checks tree` equals the concatenation
of the outputs of the seven check functions in the fixed registry order
(exec/eval usage, python_json_logger import, subprocess usage, pickle usage,
yaml load usage, hardcoded secrets, weak hashing); consequently two calls of
`run_all_checks` on the same tree return identical lists. -/
theorem run_all_checks_is_registry_concat (tree : Module) :
    run_all_checks tree =
      check_exec_eval_usage tree ++ (check_python_json_logger_import tree ++
        (check_subprocess_usage tree ++ (check_pickle_usage tree ++
          (check_yaml_load_usage tree ++ (check_hardcoded_secrets tree ++
            check_weak_hashing_usage tree)))))
    ∧ run_all_checks tree = run_all_checks tree :=
  ⟨run_all_checks_eq tree, rfl⟩

/-- C2: The body of `run_all_checks` has no `try`/`except`.  Under exception
semantics its loop (`run_checks_exc`) agrees with `run_all_checks` while every
rule returns normally, but if a registered rule raises (here: the third,
`check_subprocess_usage`'s slot, replaced by a rule raising `AttributeError`
on an unexpected node shape) the exception propagates out of the loop and no
diagnostic at all is returned — there is no per-rule fault isolation. -/
theorem run_all_checks_no_fault_isolation (tree : Module) :
    run_checks_exc (checks.map ok_rule) tree = .ok (run_all_checks tree)
    ∧ run_checks_exc
        [ok_rule check_exec_eval_usage, ok_rule check_python_json_logger_import,
         faulty_rule, ok_rule check_pickle_usage, ok_rule check_yaml_load_usage,
         ok_rule check_hardcoded_secrets, ok_rule check_weak_hashing_usage] tree
      = .error ("AttributeError") :=
  ⟨rfl, rfl⟩

/-- C3: `check_exec_eval_usage` emits exactly one diagnostic for every `Call`
node whose function is a plain `Name` with id `exec` or `eval` (the
`execEvalTarget` hits of the pre-order node list), at that node's source
line, carrying the fixed reference code string `[Security][CVE-2025-3248]`,
and emits no diagnostic for any other node. -/
theorem check_exec_eval_spec (tree : Module) :
    check_exec_eval_usage tree =
      ((preorderM tree).filterMap execEvalTarget).map (fun p => execEvalMsg p.1 p.2)
    ∧ ∀ id ln, ∃ rest,
        execEvalMsg id ln =
          "[Security][CVE-2025-3248]" ++ (" Line " ++ (toString ln ++ (": " ++ rest))) :=
  ⟨flatMap_eq_filterMap_map execEval_visit execEvalTarget
      (fun p => execEvalMsg p.1 p.2) execEval_visit_eq (preorderM tree),
   fun _ _ => ⟨_, rfl⟩⟩

/-- C5: `check_yaml_load_usage` emits exactly one diagnostic, at the call's
line, for every call of the form `yaml.load(...)` that lacks a keyword
argument named `Loader` whose value is an attribute access ending in
`SafeLoader` (the `yamlTarget` hits of the pre-order node list), and emits
no diagnostic for a `yaml.load` call that has such a keyword. -/
theorem check_yaml_load_spec (tree : Module) :
    check_yaml_load_usage tree = ((preorderM tree).filterMap yamlTarget).map yamlMsg
    ∧ ∀ kw : Keyword, is_safe_loader_kw kw = true ↔
        kw.arg = some ("Loader") ∧ ∃ la obj, kw.value = Expr.Attribute la obj ("SafeLoader") :=
  ⟨flatMap_eq_filterMap_map yaml_visit yamlTarget yamlMsg yaml_visit_eq (preorderM tree),
   is_safe_loader_kw_iff⟩

/-- C7: `check_python_json_logger_import` emits a diagnostic for every
`Import` alias whose module name is exactly `python_json_logger` or begins
with `python_json_logger.` (one diagnostic per matching alias, at the import
statement's line), and one diagnostic per `ImportFrom` statement whose
source module matches in the same sense; no other node produces a
diagnostic.  (The check walks the tree breadth-first, so its output is
stated as a permutation of the per-node contributions in pre-order.) -/
theorem check_python_json_logger_spec (tree : Module) :
    (check_python_json_logger_import tree).Perm ((preorderM tree).flatMap pjl_visit)
    ∧ (∀ ln ns, pjl_visit (.stmt (.Import ln ns)) =
        (ns.filter fun a => pjl_matches a.name).map (fun _ => pjlImportMsg ln))
    ∧ (∀ ln m ns, pjl_visit (.stmt (.ImportFrom ln m ns)) =
        if pjl_matches (m.getD ("")) then [pjlFromMsg ln] else [])
    ∧ (∀ nm, pjl_matches nm =
        (nm = "python_json_logger" || startswith nm ("python_json_logger.")))
    ∧ (∀ m', pjl_visit (.module m') = [])
    ∧ (∀ ln ts v, pjl_visit (.stmt (.Assign ln ts v)) = [])
    ∧ (∀ ln v, pjl_visit (.stmt (.ExprStmt ln v)) = [])
    ∧ (∀ ln nm body, pjl_visit (.stmt (.FunctionDef ln nm body)) = [])
    ∧ (∀ e, pjl_visit (.expr e) = [])
    ∧ (∀ k, pjl_visit (.keyword k) = [])
    ∧ (∀ a, pjl_visit (.aliasN a) = []) := by
  refine ⟨List.Perm.flatMap_right pjl_visit (walk_perm tree), ?_, ?_, ?_, ?_, ?_, ?_, ?_, ?_, ?_, ?_⟩
  · intro ln ns
    exact flatMap_if_singleton_eq_filter_map (fun a => pjl_matches a.name) (pjlImportMsg ln) ns
  · intro ln m ns; rfl
  · intro nm; rfl
  · intro m'; rfl
  · intro ln ts v; rfl
  · intro ln v; rfl
  · intro ln nm body; rfl
  · intro e; rfl
  · intro k; rfl
  · intro a; rfl

/-- C4: `check_subprocess_usage` (the concatenation of `subprocess_visit`
over all nodes) emits a diagnostic for a `Call` node if and only if the call
is an attribute call on the name `subprocess` with attribute in
{run, Popen, call, check_output} and it carries a keyword argument named
`shell` whose value is the literal constant `True`; when the `shell`
keyword is absent, is `False`, or is any non-literal expression, no
diagnostic is emitted. -/
theorem check_subprocess_spec (tree : Module) (ln : Nat) (f : Expr)
    (args : List Expr) (kws : List Keyword) :
    check_subprocess_usage tree = (preorderM tree).flatMap subprocess_visit
    ∧ (subprocess_visit (.expr (.Call ln f args kws)) ≠ [] ↔
        ∃ lf lv attr, f = Expr.Attribute lf (Expr.Name lv ("subprocess")) attr
          ∧ (attr = "run" ∨ attr = "Popen" ∨ attr = "call" ∨ attr = "check_output")
          ∧ ∃ kw ∈ kws, kw.arg = some ("shell")
              ∧ ∃ lc, kw.value = Expr.Constant lc (PyConst.bool true)) := by
  refine ⟨rfl, ?_⟩
  cases f with
  | Attribute lf v attr =>
      cases v with
      | Name lv recv =>
          simp only [subprocess_visit]
          by_cases hc : recv = "subprocess" ∧
              (attr = "run" ∨ attr = "Popen" ∨ attr = "call" ∨ attr = "check_output")
          · rw [if_pos hc]
            obtain ⟨rfl, hattr⟩ := hc
            simp only [ne_eq, List.flatMap_eq_nil_iff]
            push_neg
            constructor
            · rintro ⟨kw, hkw, hne⟩
              have hsh : shell_true_kw kw = true := by
                by_contra hb
                simp only [Bool.not_eq_true] at hb
                simp [hb] at hne
              rcases (shell_true_kw_iff kw).mp hsh with ⟨harg, lc, hval⟩
              exact ⟨lf, lv, attr, rfl, hattr, kw, hkw, harg, lc, hval⟩
            · rintro ⟨lf', lv', attr', heq, -, kw, hkw, harg, lc, hval⟩
              simp at heq
              obtain ⟨-, -, rfl⟩ := heq
              refine ⟨kw, hkw, ?_⟩
              have hsh : shell_true_kw kw = true :=
                (shell_true_kw_iff kw).mpr ⟨harg, lc, hval⟩
              simp [hsh]
          · rw [if_neg hc]
            simp only [ne_eq, not_true_eq_false, false_iff, not_exists]
            rintro lf' lv' attr' ⟨heq, hattr, -⟩
            simp only [Expr.Attribute.injEq, Expr.Name.injEq] at heq
            obtain ⟨-, ⟨-, rfl⟩, rfl⟩ := heq
            exact hc ⟨rfl, hattr⟩
      | Attribute l2 w a2 => simp [subprocess_visit]
      | Call l2 g as2 ks2 => simp [subprocess_visit]
      | Constant l2 c => simp [subprocess_visit]
  | Name l2 id => simp [subprocess_visit]
  | Call l2 g as2 ks2 => simp [subprocess_visit]
  | Constant l2 c => simp [subprocess_visit]

/-- C6: `check_hardcoded_secrets` (the concatenation of `secrets_visit` over
all nodes) emits a diagnostic for an assignment node if and only if the
assignment has exactly one target, that target is a plain name, the assigned
value is a string literal, and the target name lower-cased contains one of
the substrings of `secret_keywords` (so the match is case-insensitive in the
variable name). -/
theorem check_hardcoded_secrets_spec (tree : Module) (nd : Node) :
    check_hardcoded_secrets tree = (preorderM tree).flatMap secrets_visit
    ∧ (secrets_visit nd ≠ [] ↔
        ∃ ln lt id lv sv,
          nd = Node.stmt (Stmt.Assign ln [Expr.Name lt id] (Expr.Constant lv (PyConst.str sv)))
          ∧ ∃ kw ∈ secret_keywords, ∃ pre post, (pyLower id).data = pre ++ kw.data ++ post) := by
  refine ⟨rfl, ?_⟩
  cases nd with
  | stmt s' =>
      cases s' with
      | Assign ln ts v =>
          rcases ts with - | ⟨t, ts'⟩
          · simp [secrets_visit]
          rcases ts' with - | ⟨t2, ts''⟩
          · rcases t with ⟨lt, id⟩ | ⟨lt, tv, ta⟩ | ⟨lt, f, args, kws⟩ | ⟨lt, c⟩
            case Attribute => simp [secrets_visit]
            case Call => simp [secrets_visit]
            case Constant => simp [secrets_visit]
            rcases v with ⟨lv, id2⟩ | ⟨lv, vv, va⟩ | ⟨lv, f2, args2, kws2⟩ | ⟨lv, c⟩
            case Name => simp [secrets_visit]
            case Attribute => simp [secrets_visit]
            case Call => simp [secrets_visit]
            rcases c with sv | b | n | -
            case bool => simp [secrets_visit]
            case int => simp [secrets_visit]
            case none => simp [secrets_visit]
            simp only [secrets_visit]
            constructor
            · intro h
              by_cases hc : (secret_keywords.any fun kw => strIn kw.data (pyLower id).data) = true
              · rcases List.any_eq_true.mp hc with ⟨kw, hkw, hin⟩
                rcases (strIn_iff kw.data (pyLower id).data).mp hin with ⟨pre, post, hsplit⟩
                exact ⟨ln, lt, id, lv, sv, rfl, kw, hkw, pre, post, hsplit⟩
              · rw [if_neg hc] at h
                exact absurd rfl h
            · rintro ⟨ln', lt', id', lv', sv', heq, kw, hkw, pre, post, hsplit⟩
              simp at heq
              obtain ⟨-, ⟨-, hid⟩, -, -⟩ := heq
              subst hid
              have hc : (secret_keywords.any fun kw => strIn kw.data (pyLower id).data) = true :=
                List.any_eq_true.mpr ⟨kw, hkw, (strIn_iff kw.data (pyLower id).data).mpr ⟨pre, post, hsplit⟩⟩
              rw [if_pos hc]
              simp
          · simp [secrets_visit]
      | Import ln ns => simp [secrets_visit]
      | ImportFrom ln m ns => simp [secrets_visit]
      | ExprStmt ln v => simp [secrets_visit]
      | FunctionDef ln nm body => simp [secrets_visit]
  | module m => simp [secrets_visit]
  | expr e => simp [secrets_visit]
  | keyword k => simp [secrets_visit]
  | aliasN a => simp [secrets_visit]

/-! Receiver-shape lemmas for the attribute-based matchers. -/

theorem subprocess_visit_shape2 (nd : Node) (h : subprocess_visit nd ≠ []) :
    ∃ ln lf lv attr args kws,
      nd = Node.expr (.Call ln (.Attribute lf (.Name lv ("subprocess")) attr) args kws) := by
  cases nd with
  | expr e =>
      cases e with
      | Call ln f args kws =>
          cases f with
          | Attribute lf v attr =>
              cases v with
              | Name lv recv =>
                  simp only [subprocess_visit] at h
                  by_cases hc : recv = "subprocess" ∧
                      (attr = "run" ∨ attr = "Popen" ∨ attr = "call" ∨ attr = "check_output")
                  · obtain ⟨rfl, -⟩ := hc
                    exact ⟨ln, lf, lv, attr, args, kws, rfl⟩
                  · rw [if_neg hc] at h
                    exact absurd rfl h
              | Attribute l2 w a2 => simp [subprocess_visit] at h
              | Call l2 g as2 ks2 => simp [subprocess_visit] at h
              | Constant l2 c => simp [subprocess_visit] at h
          | Name lv id => simp [subprocess_visit] at h
          | Call lc g as2 ks2 => simp [subprocess_visit] at h
          | Constant lc c => simp [subprocess_visit] at h
      | Name ln id => simp [subprocess_visit] at h
      | Attribute ln v a => simp [subprocess_visit] at h
      | Constant ln c => simp [subprocess_visit] at h
  | module m => simp [subprocess_visit] at h
  | stmt s' => simp [subprocess_visit] at h
  | keyword k => simp [subprocess_visit] at h
  | aliasN a => simp [subprocess_visit] at h

theorem pickle_visit_shape2 (nd : Node) (h : pickle_visit nd ≠ []) :
    ∃ ln lf lv attr args kws,
      nd = Node.expr (.Call ln (.Attribute lf (.Name lv ("pickle")) attr) args kws) := by
  cases nd with
  | expr e =>
      cases e with
      | Call ln f args kws =>
          cases f with
          | Attribute lf v attr =>
              cases v with
              | Name lv recv =>
                  simp only [pickle_visit] at h
                  by_cases hc : recv = "pickle" ∧ (attr = "load" ∨ attr = "loads")
                  · obtain ⟨rfl, -⟩ := hc
                    exact ⟨ln, lf, lv, attr, args, kws, rfl⟩
                  · rw [if_neg hc] at h
                    exact absurd rfl h
              | Attribute l2 w a2 => simp [pickle_visit] at h
              | Call l2 g as2 ks2 => simp [pickle_visit] at h
              | Constant l2 c => simp [pickle_visit] at h
          | Name lv id => simp [pickle_visit] at h
          | Call lc g as2 ks2 => simp [pickle_visit] at h
          | Constant lc c => simp [pickle_visit] at h
      | Name ln id => simp [pickle_visit] at h
      | Attribute ln v a => simp [pickle_visit] at h
      | Constant ln c => simp [pickle_visit] at h
  | module m => simp [pickle_visit] at h
  | stmt s' => simp [pickle_visit] at h
  | keyword k => simp [pickle_visit] at h
  | aliasN a => simp [pickle_visit] at h

theorem yaml_visit_shape2 (nd : Node) (h : yaml_visit nd ≠ []) :
    ∃ ln lf lv args kws,
      nd = Node.expr (.Call ln (.Attribute lf (.Name lv ("yaml")) ("load")) args kws) := by
  cases nd with
  | expr e =>
      cases e with
      | Call ln f args kws =>
          cases f with
          | Attribute lf v attr =>
              cases v with
              | Name lv recv =>
                  simp only [yaml_visit] at h
                  by_cases hc : recv = "yaml" ∧ attr = "load"
                  · obtain ⟨rfl, rfl⟩ := hc
                    exact ⟨ln, lf, lv, args, kws, rfl⟩
                  · rw [if_neg hc] at h
                    exact absurd rfl h
              | Attribute l2 w a2 => simp [yaml_visit] at h
              | Call l2 g as2 ks2 => simp [yaml_visit] at h
              | Constant l2 c => simp [yaml_visit] at h
          | Name lv id => simp [yaml_visit] at h
          | Call lc g as2 ks2 => simp [yaml_visit] at h
          | Constant lc c => simp [yaml_visit] at h
      | Name ln id => simp [yaml_visit] at h
      | Attribute ln v a => simp [yaml_visit] at h
      | Constant ln c => simp [yaml_visit] at h
  | module m => simp [yaml_visit] at h
  | stmt s' => simp [yaml_visit] at h
  | keyword k => simp [yaml_visit] at h
  | aliasN a => simp [yaml_visit] at h

theorem hash_visit_shape2 (nd : Node) (h : hash_visit nd ≠ []) :
    ∃ ln lv attr, nd = Node.expr (.Attribute ln (.Name lv ("hashlib")) attr) := by
  cases nd with
  | expr e =>
      cases e with
      | Attribute ln v attr =>
          cases v with
          | Name lv recv =>
              simp only [hash_visit] at h
              by_cases hc : recv = "hashlib" ∧ (attr = "md5" ∨ attr = "sha1")
              · obtain ⟨rfl, -⟩ := hc
                exact ⟨ln, lv, attr, rfl⟩
              · rw [if_neg hc] at h
                exact absurd rfl h
          | Attribute l2 w a2 => simp [hash_visit] at h
          | Call l2 g as2 ks2 => simp [hash_visit] at h
          | Constant l2 c => simp [hash_visit] at h
      | Name ln id => simp [hash_visit] at h
      | Call ln f args kws => simp [hash_visit] at h
      | Constant ln c => simp [hash_visit] at h
  | module m => simp [hash_visit] at h
  | stmt s' => simp [hash_visit] at h
  | keyword k => simp [hash_visit] at h
  | aliasN a => simp [hash_visit] at h

/-- If every nonempty contribution of `visit` happens at a node that is, or
directly contains, an attribute access on the plain name `mname`, then on a
tree without `mname` among its attribute receivers the whole pass is empty. -/
theorem flatMap_visit_empty (visit : Node → List String) (mname : String)
    (hshape : ∀ nd, visit nd ≠ [] →
      ∃ c, (c = nd ∨ c ∈ nd.children) ∧ receiverName c = some mname)
    (tree : Module) (h : mname ∉ receiver_names tree) :
    (preorderM tree).flatMap visit = [] := by
  rw [List.flatMap_eq_nil_iff]
  intro nd hnd
  by_contra hne
  rcases hshape nd hne with ⟨c, hcase, hrecv⟩
  rcases hcase with rfl | hc
  · exact h (List.mem_filterMap.mpr ⟨c, hnd, hrecv⟩)
  · have hmem : c ∈ preorderM tree :=
      children_mem_preNode (nsize (Node.module tree)) (Node.module tree) le_rfl nd hnd c hc
    exact h (List.mem_filterMap.mpr ⟨c, hmem, hrecv⟩)

/-- C9: The attribute-based matchers match only when the attribute's receiver
is the bare name of the module itself (`subprocess`, `pickle`, `yaml`,
`hashlib`); for every tree in which the dangerous member is only reached
through some other name (no attribute access on the bare module name occurs
anywhere), these checks emit no diagnostic. -/
theorem attribute_checks_require_module_name (nd : Node) (tree : Module) :
    (subprocess_visit nd ≠ [] → ∃ ln lf lv attr args kws,
        nd = Node.expr (.Call ln (.Attribute lf (.Name lv ("subprocess")) attr) args kws))
    ∧ (pickle_visit nd ≠ [] → ∃ ln lf lv attr args kws,
        nd = Node.expr (.Call ln (.Attribute lf (.Name lv ("pickle")) attr) args kws))
    ∧ (yaml_visit nd ≠ [] → ∃ ln lf lv args kws,
        nd = Node.expr (.Call ln (.Attribute lf (.Name lv ("yaml")) ("load")) args kws))
    ∧ (hash_visit nd ≠ [] → ∃ ln lv attr,
        nd = Node.expr (.Attribute ln (.Name lv ("hashlib")) attr))
    ∧ ("subprocess" ∉ receiver_names tree → check_subprocess_usage tree = [])
    ∧ ("pickle" ∉ receiver_names tree → check_pickle_usage tree = [])
    ∧ ("yaml" ∉ receiver_names tree → check_yaml_load_usage tree = [])
    ∧ ("hashlib" ∉ receiver_names tree → check_weak_hashing_usage tree = []) := by
  refine ⟨subprocess_visit_shape2 nd, pickle_visit_shape2 nd, yaml_visit_shape2 nd,
    hash_visit_shape2 nd, ?_, ?_, ?_, ?_⟩
  · intro h
    refine flatMap_visit_empty subprocess_visit ("subprocess") ?_ tree h
    intro nd' h'
    rcases subprocess_visit_shape2 nd' h' with ⟨ln, lf, lv, attr, args, kws, rfl⟩
    exact ⟨.expr (.Attribute lf (.Name lv ("subprocess")) attr),
      Or.inr (List.mem_cons_self _ _), rfl⟩
  · intro h
    refine flatMap_visit_empty pickle_visit ("pickle") ?_ tree h
    intro nd' h'
    rcases pickle_visit_shape2 nd' h' with ⟨ln, lf, lv, attr, args, kws, rfl⟩
    exact ⟨.expr (.Attribute lf (.Name lv ("pickle")) attr),
      Or.inr (List.mem_cons_self _ _), rfl⟩
  · intro h
    refine flatMap_visit_empty yaml_visit ("yaml") ?_ tree h
    intro nd' h'
    rcases yaml_visit_shape2 nd' h' with ⟨ln, lf, lv, args, kws, rfl⟩
    exact ⟨.expr (.Attribute lf (.Name lv ("yaml")) ("load")),
      Or.inr (List.mem_cons_self _ _), rfl⟩
  · intro h
    refine flatMap_visit_empty hash_visit ("hashlib") ?_ tree h
    intro nd' h'
    rcases hash_visit_shape2 nd' h' with ⟨ln, lv, attr, rfl⟩
    exact ⟨.expr (.Attribute ln (.Name lv ("hashlib")) attr), Or.inl rfl, rfl⟩

/-- C9 witness: on `tree_alias`, where `subprocess`, `pickle`, `yaml` and
`hashlib` are only reached through the alias names `sp`, `pk`, `ym`, `hl`,
all four attribute-based checks emit nothing even though every dangerous
pattern is syntactically present under the alias. -/
theorem attribute_checks_require_module_name_witness :
    check_subprocess_usage tree_alias = [] ∧ check_pickle_usage tree_alias = []
    ∧ check_yaml_load_usage tree_alias = [] ∧ check_weak_hashing_usage tree_alias = [] :=
  ⟨(attribute_checks_require_module_name (Node.module tree_alias) tree_alias).2.2.2.2.1 (by decide),
   (attribute_checks_require_module_name (Node.module tree_alias) tree_alias).2.2.2.2.2.1 (by decide),
   (attribute_checks_require_module_name (Node.module tree_alias) tree_alias).2.2.2.2.2.2.1 (by decide),
   (attribute_checks_require_module_name (Node.module tree_alias) tree_alias).2.2.2.2.2.2.2 (by decide)⟩

/-- C8: Every string returned by `run_all_checks` begins with the category
tag `[Security]`, optionally followed by one of the two fixed code tags,
then contains `Line N:` where `N` is exactly the `lineno` of the node whose
per-rule contribution produced the string. -/
theorem run_all_checks_format (tree : Module) (s : String) (hs : s ∈ run_all_checks tree) :
    ∃ nd, nd ∈ preorderM tree
      ∧ (s ∈ execEval_visit nd ∨ s ∈ pjl_visit nd ∨ s ∈ subprocess_visit nd ∨
         s ∈ pickle_visit nd ∨ s ∈ yaml_visit nd ∨ s ∈ secrets_visit nd ∨ s ∈ hash_visit nd)
      ∧ ∃ code rest, (code = "" ∨ code = "[CVE-2025-3248]" ∨ code = "[CVE-2025-27607]")
        ∧ s = "[Security]" ++ (code ++ (" Line " ++ (toString (lineOf nd) ++ (": " ++ rest)))) := by
  rw [run_all_checks_eq] at hs
  rcases List.mem_append.mp hs with h | hs
  · rcases List.mem_flatMap.mp h with ⟨nd, hnd, hv⟩
    rcases execEval_visit_shape nd s hv with ⟨rest, hrest⟩
    exact ⟨nd, hnd, Or.inl hv, "[CVE-2025-3248]", rest, Or.inr (Or.inl rfl), hrest⟩
  rcases List.mem_append.mp hs with h | hs
  · have h' : s ∈ (preorderM tree).flatMap pjl_visit :=
      (List.Perm.mem_iff (List.Perm.flatMap_right pjl_visit (walk_perm tree))).mp h
    rcases List.mem_flatMap.mp h' with ⟨nd, hnd, hv⟩
    rcases pjl_visit_shape nd s hv with ⟨rest, hrest⟩
    exact ⟨nd, hnd, Or.inr (Or.inl hv), "[CVE-2025-27607]", rest, Or.inr (Or.inr rfl), hrest⟩
  rcases List.mem_append.mp hs with h | hs
  · rcases List.mem_flatMap.mp h with ⟨nd, hnd, hv⟩
    rcases subprocess_visit_shape nd s hv with ⟨rest, hrest⟩
    refine ⟨nd, hnd, Or.inr (Or.inr (Or.inl hv)), "", rest, Or.inl rfl, ?_⟩
    rw [hrest]; rfl
  rcases List.mem_append.mp hs with h | hs
  · rcases List.mem_flatMap.mp h with ⟨nd, hnd, hv⟩
    rcases pickle_visit_shape nd s hv with ⟨rest, hrest⟩
    refine ⟨nd, hnd, Or.inr (Or.inr (Or.inr (Or.inl hv))), "", rest, Or.inl rfl, ?_⟩
    rw [hrest]; rfl
  rcases List.mem_append.mp hs with h | hs
  · rcases List.mem_flatMap.mp h with ⟨nd, hnd, hv⟩
    rcases yaml_visit_shape nd s hv with ⟨rest, hrest⟩
    refine ⟨nd, hnd, Or.inr (Or.inr (Or.inr (Or.inr (Or.inl hv)))), "", rest, Or.inl rfl, ?_⟩
    rw [hrest]; rfl
  rcases List.mem_append.mp hs with h | h
  · rcases List.mem_flatMap.mp h with ⟨nd, hnd, hv⟩
    rcases secrets_visit_shape nd s hv with ⟨rest, hrest⟩
    refine ⟨nd, hnd, Or.inr (Or.inr (Or.inr (Or.inr (Or.inr (Or.inl hv))))), "", rest, Or.inl rfl, ?_⟩
    rw [hrest]; rfl
  · rcases List.mem_flatMap.mp h with ⟨nd, hnd, hv⟩
    rcases hash_visit_shape nd s hv with ⟨rest, hrest⟩
    refine ⟨nd, hnd, Or.inr (Or.inr (Or.inr (Or.inr (Or.inr (Or.inr hv))))), "", rest, Or.inl rfl, ?_⟩
    rw [hrest]; rfl

/-- C8 witness: on the concrete module `eval(x)` at line 3, the single
diagnostic of `run_all_checks` has the stated shape. -/
theorem run_all_checks_format_witness :
    ∃ nd, nd ∈ preorderM tree_exec
      ∧ (execEvalMsg ("eval") 3 ∈ execEval_visit nd ∨ execEvalMsg ("eval") 3 ∈ pjl_visit nd ∨
         execEvalMsg ("eval") 3 ∈ subprocess_visit nd ∨ execEvalMsg ("eval") 3 ∈ pickle_visit nd ∨
         execEvalMsg ("eval") 3 ∈ yaml_visit nd ∨ execEvalMsg ("eval") 3 ∈ secrets_visit nd ∨
         execEvalMsg ("eval") 3 ∈ hash_visit nd)
      ∧ ∃ code rest, (code = "" ∨ code = "[CVE-2025-3248]" ∨ code = "[CVE-2025-27607]")
        ∧ execEvalMsg ("eval") 3 =
            "[Security]" ++ (code ++ (" Line " ++ (toString (lineOf nd) ++ (": " ++ rest)))) :=
  run_all_checks_format tree_exec (execEvalMsg ("eval") 3) (by decide)

/-- C10: For a `yaml.load` attribute call, only a keyword named `Loader`
whose value is an attribute access ending in `SafeLoader` suppresses the
diagnostic: with no such keyword the diagnostic is emitted at the call's
line whatever the positional arguments are (in particular when a safe
loader is passed positionally), and any keyword of that shape suppresses
it regardless of the object the attribute is accessed on. -/
theorem yaml_loader_keyword_only (ln lf lv : Nat) (args : List Expr) (kws : List Keyword) :
    ((¬ ∃ kw ∈ kws, kw.arg = some ("Loader")
        ∧ ∃ la obj, kw.value = Expr.Attribute la obj ("SafeLoader")) →
      yaml_visit (.expr (.Call ln (.Attribute lf (.Name lv ("yaml")) ("load")) args kws))
        = [yamlMsg ln])
    ∧ ((∃ kw ∈ kws, kw.arg = some ("Loader")
        ∧ ∃ la obj, kw.value = Expr.Attribute la obj ("SafeLoader")) →
      yaml_visit (.expr (.Call ln (.Attribute lf (.Name lv ("yaml")) ("load")) args kws))
        = []) := by
  constructor
  · intro h
    have hany : (kws.any is_safe_loader_kw) = false := by
      by_contra hb
      simp only [Bool.not_eq_false] at hb
      rcases List.any_eq_true.mp hb with ⟨kw, hkw, hsafe⟩
      rcases (is_safe_loader_kw_iff kw).mp hsafe with ⟨harg, la, obj, hval⟩
      exact h ⟨kw, hkw, harg, la, obj, hval⟩
    simp [yaml_visit, hany]
  · rintro ⟨kw, hkw, harg, la, obj, hval⟩
    have hany : (kws.any is_safe_loader_kw) = true :=
      List.any_eq_true.mpr ⟨kw, hkw, (is_safe_loader_kw_iff kw).mpr ⟨harg, la, obj, hval⟩⟩
    simp [yaml_visit, hany]

/-- C10 witness: `yaml.load(data, yaml.SafeLoader)` (safe loader passed
positionally, line 7) is still flagged, while
`yaml.load(data, Loader=myyaml.SafeLoader)` (line 8) is not. -/
theorem yaml_loader_keyword_only_witness :
    yaml_visit (.expr (.Call 7 (.Attribute 7 (.Name 7 ("yaml")) ("load"))
        [Expr.Name 7 ("data"), Expr.Attribute 7 (Expr.Name 7 ("yaml")) ("SafeLoader")] []))
      = [yamlMsg 7]
    ∧ yaml_visit (.expr (.Call 8 (.Attribute 8 (.Name 8 ("yaml")) ("load")) [Expr.Name 8 ("data")]
        [Keyword.mk (some ("Loader")) (Expr.Attribute 8 (Expr.Name 8 ("myyaml")) ("SafeLoader"))]))
      = [] :=
  ⟨(yaml_loader_keyword_only 7 7 7
      [Expr.Name 7 ("data"), Expr.Attribute 7 (Expr.Name 7 ("yaml")) ("SafeLoader")] []).1
      (by simp),
   (yaml_loader_keyword_only 8 8 8 [Expr.Name 8 ("data")]
      [Keyword.mk (some ("Loader")) (Expr.Attribute 8 (Expr.Name 8 ("myyaml")) ("SafeLoader"))]).2
      ⟨Keyword.mk (some ("Loader")) (Expr.Attribute 8 (Expr.Name 8 ("myyaml")) ("SafeLoader")),
       List.mem_cons_self _ _, rfl, 8, Expr.Name 8 ("myyaml"), rfl⟩⟩

end PyWard
